import Mathlib

/-!
Verification of the pysweeper board engine (`pysweeper/pysweeper.py`).

The Python module is shallowly embedded: the mutable `Board`/`Tile` objects
become immutable structures with explicit state passing, `dict` grids become
total functions `Coordinate → Tile` (only in-bounds coordinates matter; the
Python code raises `KeyError` on out-of-bounds keys, which is modelled by
restricting every statement to in-bounds coordinates), and the ambient
randomness of `random.choices(list(self.grid.values()), k=nmines)` becomes an
explicit list `draws` of chosen coordinates (`random.choices` samples WITH
replacement, so `draws` may repeat coordinates; a valid draw has length
`nmines` and all elements in bounds).
-/

namespace Pysweeper

abbrev Coordinate : Type := Nat × Nat

/-- `Tile` from `pysweeper.py`: a dataclass holding the four per-cell fields. -/
structure Tile where
  mine : Bool := false
  exposed : Bool := false
  flagged : Bool := false
  adjacent_mines : Nat := 0
deriving DecidableEq

/-- `Board` from `pysweeper.py`.  The `grid` dict is a total function; only
coordinates in `cells` are meaningful. -/
structure Board where
  nrows : Nat
  ncolumns : Nat
  grid : Coordinate → Tile
  nmines : Nat
  nflagged : Nat

/-- The coordinate rectangle `{(x, y) | x < nrows, y < ncolumns}`, i.e. the key
set of the Python `grid` dict. -/
def Board.cells (b : Board) : Finset Coordinate :=
  Finset.range b.nrows ×ˢ Finset.range b.ncolumns

/-- `Board.__init__`: every cell starts as a default tile and each tile drawn by
`random.choices` (the `draws` list, sampled with replacement) has `mine` set to
`True`.  Marking a tile twice is idempotent, so a tile is a mine iff its
coordinate occurs in `draws`. -/
def Board.init (nrows ncolumns nmines : Nat) (draws : List Coordinate) : Board where
  nrows := nrows
  ncolumns := ncolumns
  grid := fun c => { mine := decide (c ∈ draws) }
  nmines := nmines
  nflagged := 0

/-- `increments = 1, -1, 0` from `Board.adjacent`. -/
def increments : List Int := [1, -1, 0]

/-- The comprehension body of `Board.adjacent`: candidate offsets `(x, y)` with
`x or y` truthy and `(i + x, j + y)` inside the rectangle.  The Python code
builds a `set`, but the nine candidate coordinates are pairwise distinct, so a
list in a fixed order carries the same elements. -/
def Board.adjacentList (b : Board) (i j : Nat) : List Coordinate :=
  (increments.flatMap fun x => increments.map fun y => (x, y)).filterMap fun p =>
    if (p.1 ≠ 0 ∨ p.2 ≠ 0) ∧ 0 ≤ (i : Int) + p.1 ∧ (i : Int) + p.1 < (b.nrows : Int)
        ∧ 0 ≤ (j : Int) + p.2 ∧ (j : Int) + p.2 < (b.ncolumns : Int)
    then some (((i : Int) + p.1).toNat, ((j : Int) + p.2).toNat)
    else none

/-- `Board.adjacent`: the adjacency set of `(i, j)`. -/
def Board.adjacent (b : Board) (i j : Nat) : Finset Coordinate :=
  (b.adjacentList i j).toFinset

/-- `sum(grid[adj_coord].mine for adj_coord in adjacent)` evaluated on an
explicit grid snapshot `g`. -/
def adjacentMinesOn (b : Board) (g : Coordinate → Tile) (i j : Nat) : Nat :=
  ((b.adjacent i j).filter fun c => (g c).mine = true).card

/-- The adjacent-mine count of `(i, j)` on the board's own grid. -/
def Board.adjacentMines (b : Board) (i j : Nat) : Nat :=
  adjacentMinesOn b b.grid i j

/-- `Board.ntiles`. -/
def Board.ntiles (b : Board) : Nat := b.nrows * b.ncolumns

/-- `Board.total_exposed`: `sum(tile.exposed for tile in self.grid.values())`. -/
def Board.total_exposed (b : Board) : Nat :=
  (b.cells.filter fun c => (b.grid c).exposed = true).card

/-- `Board.win` (the boolean it returns; its `assert` is a separate runtime
check, not part of the returned value). -/
def Board.win (b : Board) : Bool :=
  decide (b.ntiles =
    b.total_exposed +
      (b.cells.filter fun c => (b.grid c).flagged = true ∧ (b.grid c).mine = true).card)

/-- Number of tiles whose `mine` field is `True` (the spec's observable for the
mine-count invariant). -/
def Board.mineCount (b : Board) : Nat :=
  (b.cells.filter fun c => (b.grid c).mine = true).card

/-- Number of tiles whose `flagged` field is `True`. -/
def Board.flaggedCount (b : Board) : Nat :=
  (b.cells.filter fun c => (b.grid c).flagged = true).card

/-- `Board.flag`: branch for branch the Python method.  `self.nflagged - 1 >= 0`
over Python ints is `1 ≤ nflagged`.  Returns the updated board and the boolean
`flagged = not was_flagged` that the Python method returns unconditionally. -/
def Board.flag (b : Board) (i j : Nat) : Board × Bool :=
  let tile := b.grid (i, j)
  let was_flagged := tile.flagged
  let flagged := !was_flagged
  if was_flagged = true then
    if 1 ≤ b.nflagged then
      ({ b with
          grid := Function.update b.grid (i, j) { tile with flagged := flagged },
          nflagged := b.nflagged - 1 }, flagged)
    else (b, flagged)
  else
    if b.nflagged + 1 ≤ b.nmines ∧ tile.exposed = false then
      ({ b with
          grid := Function.update b.grid (i, j) { tile with flagged := flagged },
          nflagged := b.nflagged + 1 }, flagged)
    else (b, flagged)

theorem adjacentList_mem_cells (b : Board) (i j : Nat) {d : Coordinate}
    (hd : d ∈ b.adjacentList i j) : d ∈ b.cells := by
  unfold Board.adjacentList at hd
  rcases List.mem_filterMap.mp hd with ⟨p, _, hp⟩
  split at hp
  · rename_i hcond
    cases hp
    simp only [Board.cells, Finset.mem_product, Finset.mem_range]
    obtain ⟨-, h1, h2, h3, h4⟩ := hcond
    constructor <;> omega
  · cases hp

theorem adjacentList_length_le (b : Board) (i j : Nat) :
    (b.adjacentList i j).length ≤ 9 := by
  have h9 : (increments.flatMap fun x => increments.map fun y => ((x : Int), (y : Int))).length = 9 := by
    decide
  calc (b.adjacentList i j).length
      ≤ (increments.flatMap fun x => increments.map fun y => ((x : Int), (y : Int))).length :=
        List.length_filterMap_le _ _
    _ = 9 := h9

theorem exposeLoop_measure_skip (b : Board) (coord : Coordinate) (rest : List Coordinate)
    (seen : Finset Coordinate) :
    10 * ((b.cells ∪ rest.toFinset) \ seen).card + rest.length <
      10 * ((b.cells ∪ (coord :: rest).toFinset) \ seen).card + (coord :: rest).length := by
  have hsub : (b.cells ∪ rest.toFinset) \ seen ⊆ (b.cells ∪ (coord :: rest).toFinset) \ seen := by
    refine Finset.sdiff_subset_sdiff ?_ Finset.Subset.rfl
    refine Finset.union_subset_union_right ?_
    intro d hd
    simp only [List.mem_toFinset] at hd ⊢
    exact List.mem_cons_of_mem _ hd
  have hcard := Finset.card_le_card hsub
  simp only [List.length_cons]
  omega

theorem exposeLoop_measure_step (b : Board) (coord : Coordinate) (rest newElems : List Coordinate)
    (seen : Finset Coordinate) (hcoord : coord ∉ seen)
    (hnew : ∀ c ∈ newElems, c ∈ b.cells) (hlen : newElems.length ≤ 9) :
    10 * ((b.cells ∪ (rest ++ newElems).toFinset) \ insert coord seen).card
        + (rest ++ newElems).length <
      10 * ((b.cells ∪ (coord :: rest).toFinset) \ seen).card + (coord :: rest).length := by
  have hmemS : coord ∈ (b.cells ∪ (coord :: rest).toFinset) \ seen := by
    simp only [Finset.mem_sdiff, Finset.mem_union, List.mem_toFinset]
    exact ⟨Or.inr (List.mem_cons_self _ _), hcoord⟩
  have hsub : (b.cells ∪ (rest ++ newElems).toFinset) \ insert coord seen ⊆
      ((b.cells ∪ (coord :: rest).toFinset) \ seen).erase coord := by
    intro d hd
    simp only [Finset.mem_sdiff, Finset.mem_union, List.mem_toFinset, List.mem_append,
      Finset.mem_insert, not_or] at hd
    obtain ⟨hd1, hd2, hd3⟩ := hd
    simp only [Finset.mem_erase, Finset.mem_sdiff, Finset.mem_union, List.mem_toFinset]
    refine ⟨hd2, ?_, hd3⟩
    rcases hd1 with h | h | h
    · exact Or.inl h
    · exact Or.inr (List.mem_cons_of_mem _ h)
    · exact Or.inl (hnew _ h)
  have hcard := Finset.card_le_card hsub
  rw [Finset.card_erase_of_mem hmemS] at hcard
  have hpos : 1 ≤ ((b.cells ∪ (coord :: rest).toFinset) \ seen).card :=
    Finset.card_pos.mpr ⟨coord, hmemS⟩
  simp only [List.length_append, List.length_cons]
  omega

/-- The net effect on `grid[coord]` of one unseen iteration of the loop of
`Board.expose`: `grid[coord].exposed = not tile.mine and not tile.flagged`, and
`grid[coord].adjacent_mines = adjacent_mines` when that count is nonzero. -/
def writeTile (b : Board) (g : Coordinate → Tile) (c : Coordinate) : Tile :=
  { g c with
      exposed := !(g c).mine && !(g c).flagged,
      adjacent_mines :=
        if adjacentMinesOn b g c.1 c.2 = 0 then (g c).adjacent_mines
        else adjacentMinesOn b g c.1 c.2 }

/-- The `while coordinates:` loop of `Board.expose`, with the deque, the
`seen` set, the mutating grid and the accumulating `exposed` set made explicit.
Each iteration pops the head; an unseen coordinate has its tile updated by
`writeTile` and, when its adjacent-mine count is zero, the not-yet-seen
adjacent coordinates appended to the queue (the Python code iterates a set
here; the model fixes the enumeration order of `adjacentList`, which carries
exactly the same coordinates). -/
def exposeLoop (b : Board) (g : Coordinate → Tile) (queue : List Coordinate)
    (seen : Finset Coordinate) (ex : Finset Coordinate) :
    (Coordinate → Tile) × Finset Coordinate :=
  match queue with
  | [] => (g, ex)
  | coord :: rest =>
    if h : coord ∈ seen then
      exposeLoop b g rest seen ex
    else
      exposeLoop b
        (Function.update g coord (writeTile b g coord))
        (if adjacentMinesOn b g coord.1 coord.2 = 0 then
          rest ++ (b.adjacentList coord.1 coord.2).filter fun c => decide (c ∉ insert coord seen)
        else rest)
        (insert coord seen)
        (if (!(g coord).mine && !(g coord).flagged) = true then insert coord ex else ex)
termination_by 10 * ((b.cells ∪ queue.toFinset) \ seen).card + queue.length
decreasing_by
  · exact exposeLoop_measure_skip b coord rest seen
  · split
    · refine exposeLoop_measure_step b coord rest _ seen h ?_ ?_
      · intro c hc
        exact adjacentList_mem_cells b coord.1 coord.2 (List.mem_of_mem_filter hc)
      · exact le_trans (List.length_filter_le _ _) (adjacentList_length_le b coord.1 coord.2)
    · have := exposeLoop_measure_step b coord rest [] seen h (by intro c hc; cases hc) (by simp)
      simpa using this

/-- The set of coordinates the loop of `Board.expose` visits (adds to `seen`),
computed over a fixed grid snapshot `g`.  `exposeLoop` never changes the `mine`
and `flagged` fields it branches on, so its control flow is that of
`visitLoop` on the starting grid; this function exists to state that fact. -/
def visitLoop (b : Board) (g : Coordinate → Tile) (queue : List Coordinate)
    (seen : Finset Coordinate) : Finset Coordinate :=
  match queue with
  | [] => seen
  | coord :: rest =>
    if h : coord ∈ seen then
      visitLoop b g rest seen
    else
      visitLoop b g
        (if adjacentMinesOn b g coord.1 coord.2 = 0 then
          rest ++ (b.adjacentList coord.1 coord.2).filter fun c => decide (c ∉ insert coord seen)
        else rest)
        (insert coord seen)
termination_by 10 * ((b.cells ∪ queue.toFinset) \ seen).card + queue.length
decreasing_by
  · exact exposeLoop_measure_skip b coord rest seen
  · split
    · refine exposeLoop_measure_step b coord rest _ seen h ?_ ?_
      · intro c hc
        exact adjacentList_mem_cells b coord.1 coord.2 (List.mem_of_mem_filter hc)
      · exact le_trans (List.length_filter_le _ _) (adjacentList_length_le b coord.1 coord.2)
    · have := exposeLoop_measure_step b coord rest [] seen h (by intro c hc; cases hc) (by simp)
      simpa using this

/-- `Board.expose`: if the target is a mine, mark it exposed and return the
singleton; otherwise run the flood-fill loop seeded with `(i, j)` and return
the grid it produces together with its `exposed` set. -/
def Board.expose (b : Board) (i j : Nat) : Board × Finset Coordinate :=
  if (b.grid (i, j)).mine = true then
    ({ b with grid := Function.update b.grid (i, j) { b.grid (i, j) with exposed := true } },
      {(i, j)})
  else
    let r := exposeLoop b b.grid [(i, j)] ∅ ∅
    ({ b with grid := r.1 }, r.2)

/-- Agreement of two grid snapshots on the `mine` and `flagged` fields, the
only fields the control flow of the flood fill reads. -/
def MF (g1 g2 : Coordinate → Tile) : Prop :=
  ∀ c, (g1 c).mine = (g2 c).mine ∧ (g1 c).flagged = (g2 c).flagged

/-- The region `expose(i, j)` is specified to reveal: the least set containing
the start that, at every member with zero adjacent mines, also contains every
neighbor of that member.  Members with a positive adjacent-mine count are the
numbered boundary; the flood fill does not continue past them. -/
inductive FloodReach (b : Board) (s0 : Coordinate) : Coordinate → Prop
  | start : FloodReach b s0 s0
  | step {c d : Coordinate} : FloodReach b s0 c → b.adjacentMines c.1 c.2 = 0 →
      d ∈ b.adjacent c.1 c.2 → FloodReach b s0 d

/-- Board states reachable from `b0` by any sequence of `expose` and `flag`
calls at in-bounds coordinates (an out-of-bounds call raises `KeyError` in
Python before mutating anything, so it produces no new state). -/
inductive Reachable : Board → Board → Prop
  | refl (b : Board) : Reachable b b
  | expose {b0 b : Board} (i j : Nat) : Reachable b0 b → i < b.nrows → j < b.ncolumns →
      Reachable b0 (b.expose i j).1
  | flag {b0 b : Board} (i j : Nat) : Reachable b0 b → i < b.nrows → j < b.ncolumns →
      Reachable b0 (b.flag i j).1

/-- In a state whose exposed flagged tiles are all mines, that property is
preserved by `expose`: the mine branch exposes only a mine, and the loop never
exposes a flagged tile. -/
def ExposedFlaggedImpliesMine (b : Board) : Prop :=
  ∀ c, (b.grid c).exposed = true → (b.grid c).flagged = true → (b.grid c).mine = true

/-- The bookkeeping invariant of `flag`: the `nflagged` counter equals the
number of flagged tiles and never exceeds `nmines`. -/
def FlagCountInv (b : Board) : Prop :=
  b.nflagged = b.flaggedCount ∧ b.nflagged ≤ b.nmines

theorem visitLoop_nil (b : Board) (g : Coordinate → Tile) (seen : Finset Coordinate) :
    visitLoop b g [] seen = seen := by
  rw [visitLoop]

theorem visitLoop_cons_mem (b : Board) (g : Coordinate → Tile) {coord : Coordinate}
    (rest : List Coordinate) {seen : Finset Coordinate} (h : coord ∈ seen) :
    visitLoop b g (coord :: rest) seen = visitLoop b g rest seen := by
  rw [visitLoop]
  simp [h]

theorem visitLoop_cons_not_mem (b : Board) (g : Coordinate → Tile) {coord : Coordinate}
    (rest : List Coordinate) {seen : Finset Coordinate} (h : coord ∉ seen) :
    visitLoop b g (coord :: rest) seen =
      visitLoop b g
        (if adjacentMinesOn b g coord.1 coord.2 = 0 then
          rest ++ (b.adjacentList coord.1 coord.2).filter fun c => decide (c ∉ insert coord seen)
        else rest)
        (insert coord seen) := by
  rw [visitLoop]
  simp [h]

theorem exposeLoop_nil (b : Board) (g : Coordinate → Tile) (seen ex : Finset Coordinate) :
    exposeLoop b g [] seen ex = (g, ex) := by
  rw [exposeLoop]

theorem exposeLoop_cons_mem (b : Board) (g : Coordinate → Tile) {coord : Coordinate}
    (rest : List Coordinate) {seen : Finset Coordinate} (ex : Finset Coordinate)
    (h : coord ∈ seen) :
    exposeLoop b g (coord :: rest) seen ex = exposeLoop b g rest seen ex := by
  rw [exposeLoop]
  simp [h]

theorem exposeLoop_cons_not_mem (b : Board) (g : Coordinate → Tile) {coord : Coordinate}
    (rest : List Coordinate) {seen : Finset Coordinate} (ex : Finset Coordinate)
    (h : coord ∉ seen) :
    exposeLoop b g (coord :: rest) seen ex =
      exposeLoop b (Function.update g coord (writeTile b g coord))
        (if adjacentMinesOn b g coord.1 coord.2 = 0 then
          rest ++ (b.adjacentList coord.1 coord.2).filter fun c => decide (c ∉ insert coord seen)
        else rest)
        (insert coord seen)
        (if (!(g coord).mine && !(g coord).flagged) = true then insert coord ex else ex) := by
  rw [exposeLoop]
  simp [h]

theorem MF.refl (g : Coordinate → Tile) : MF g g := fun _ => ⟨rfl, rfl⟩

theorem MF.trans {g1 g2 g3 : Coordinate → Tile} (h12 : MF g1 g2) (h23 : MF g2 g3) :
    MF g1 g3 :=
  fun c => ⟨(h12 c).1.trans (h23 c).1, (h12 c).2.trans (h23 c).2⟩

theorem adjacentMinesOn_congr (b : Board) {g1 g2 : Coordinate → Tile} (h : MF g1 g2)
    (i j : Nat) : adjacentMinesOn b g1 i j = adjacentMinesOn b g2 i j := by
  unfold adjacentMinesOn
  congr 1
  refine Finset.filter_congr ?_
  intro c _
  rw [(h c).1]

theorem writeTile_mine (b : Board) (g : Coordinate → Tile) (c : Coordinate) :
    (writeTile b g c).mine = (g c).mine := rfl

theorem writeTile_flagged (b : Board) (g : Coordinate → Tile) (c : Coordinate) :
    (writeTile b g c).flagged = (g c).flagged := rfl

theorem MF_update_writeTile (b : Board) (g : Coordinate → Tile) (coord : Coordinate) :
    MF (Function.update g coord (writeTile b g coord)) g := by
  intro c
  by_cases hc : c = coord
  · subst hc
    rw [Function.update_same]
    exact ⟨rfl, rfl⟩
  · rw [Function.update_noteq hc]
    exact ⟨rfl, rfl⟩

theorem writeTile_congr (b : Board) {g1 g2 : Coordinate → Tile} (hmf : MF g1 g2)
    {c : Coordinate} (hc : g1 c = g2 c) : writeTile b g1 c = writeTile b g2 c := by
  unfold writeTile
  rw [hc, adjacentMinesOn_congr b hmf]

theorem visitLoop_seen_subset (b : Board) (g : Coordinate → Tile) :
    ∀ (queue : List Coordinate) (seen : Finset Coordinate), seen ⊆ visitLoop b g queue seen := by
  intro queue seen
  induction queue, seen using visitLoop.induct b g with
  | case1 seen =>
    rw [visitLoop_nil]
  | case2 seen coord rest hmem ih =>
    rw [visitLoop_cons_mem b g rest hmem]
    exact ih
  | case3 seen coord rest hmem ih =>
    rw [visitLoop_cons_not_mem b g rest hmem]
    exact (Finset.subset_insert coord seen).trans ih

theorem visitLoop_queue_subset (b : Board) (g : Coordinate → Tile) :
    ∀ (queue : List Coordinate) (seen : Finset Coordinate),
      ∀ c ∈ queue, c ∈ visitLoop b g queue seen := by
  intro queue seen
  induction queue, seen using visitLoop.induct b g with
  | case1 seen =>
    intro c hc
    cases hc
  | case2 seen coord rest hmem ih =>
    intro c hc
    rw [visitLoop_cons_mem b g rest hmem]
    rcases List.mem_cons.mp hc with h | h
    · subst h
      exact visitLoop_seen_subset b g rest seen hmem
    · exact ih c h
  | case3 seen coord rest hmem ih =>
    intro c hc
    rw [visitLoop_cons_not_mem b g rest hmem]
    rcases List.mem_cons.mp hc with h | h
    · subst h
      exact visitLoop_seen_subset b g _ _ (Finset.mem_insert_self c seen)
    · refine ih c ?_
      split
      · exact List.mem_append_left _ h
      · exact h

/-- Characterization of the flood-fill loop: it rewrites exactly the tiles of
the set `visitLoop` computes (each with `writeTile`, from the tile's value at
loop entry, since each coordinate is processed at most once), and the returned
`exposed` set collects the visited coordinates whose tiles are neither mines
nor flagged.  The visited set is computed on any snapshot `g0` that agrees
with the running grid on the `mine` and `flagged` fields, which the loop never
writes. -/
theorem exposeLoop_eq (b : Board) (g0 : Coordinate → Tile) :
    ∀ (g : Coordinate → Tile) (queue : List Coordinate) (seen ex : Finset Coordinate),
      MF g g0 →
      exposeLoop b g queue seen ex =
        ((fun c => if c ∈ visitLoop b g0 queue seen ∧ c ∉ seen then writeTile b g c else g c),
          ex ∪ (visitLoop b g0 queue seen \ seen).filter
            fun c => (!(g0 c).mine && !(g0 c).flagged) = true) := by
  intro g queue seen ex
  induction g, queue, seen, ex using exposeLoop.induct b with
  | case1 g seen ex =>
    intro hmf
    rw [exposeLoop_nil, visitLoop_nil]
    have h1 : (fun c => if c ∈ seen ∧ c ∉ seen then writeTile b g c else g c) = g := by
      funext c
      simp
    have h2 : ex ∪ (seen \ seen).filter
        (fun c => (!(g0 c).mine && !(g0 c).flagged) = true) = ex := by
      simp
    rw [h1, h2]
  | case2 g seen ex coord rest hmem ih =>
    intro hmf
    rw [exposeLoop_cons_mem b g rest ex hmem, visitLoop_cons_mem b g0 rest hmem]
    exact ih hmf
  | case3 g seen ex coord rest hmem ih =>
    intro hmf
    simp only [dite_eq_ite] at ih
    have hmf0 : MF (Function.update g coord (writeTile b g coord)) g :=
      MF_update_writeTile b g coord
    have hmf' : MF (Function.update g coord (writeTile b g coord)) g0 := hmf0.trans hmf
    have ham : adjacentMinesOn b g coord.1 coord.2 = adjacentMinesOn b g0 coord.1 coord.2 :=
      adjacentMinesOn_congr b hmf coord.1 coord.2
    have hte : (!(g coord).mine && !(g coord).flagged)
        = (!(g0 coord).mine && !(g0 coord).flagged) := by
      rw [(hmf coord).1, (hmf coord).2]
    have hcoordV : coord ∈ visitLoop b g0 (coord :: rest) seen :=
      visitLoop_queue_subset b g0 _ _ coord (List.mem_cons_self _ _)
    have hV : visitLoop b g0 (coord :: rest) seen =
        visitLoop b g0
          (if adjacentMinesOn b g coord.1 coord.2 = 0 then
            rest ++ (b.adjacentList coord.1 coord.2).filter fun c =>
              decide (c ∉ insert coord seen)
          else rest)
          (insert coord seen) := by
      rw [visitLoop_cons_not_mem b g0 rest hmem, ham]
    rw [hV] at hcoordV
    rw [exposeLoop_cons_not_mem b g rest ex hmem, ih hmf', hV]
    simp only [Prod.mk.injEq]
    constructor
    · funext c
      by_cases hc : c = coord
      · subst hc
        rw [if_neg (fun h => h.2 (Finset.mem_insert_self c seen)), Function.update_same,
          if_pos ⟨hcoordV, hmem⟩]
      · rw [Function.update_noteq hc]
        have hcnd : (c ∈ visitLoop b g0
              (if adjacentMinesOn b g coord.1 coord.2 = 0 then
                rest ++ (b.adjacentList coord.1 coord.2).filter fun c =>
                  decide (c ∉ insert coord seen)
              else rest) (insert coord seen) ∧ c ∉ insert coord seen)
            ↔ (c ∈ visitLoop b g0
              (if adjacentMinesOn b g coord.1 coord.2 = 0 then
                rest ++ (b.adjacentList coord.1 coord.2).filter fun c =>
                  decide (c ∉ insert coord seen)
              else rest) (insert coord seen) ∧ c ∉ seen) := by
          simp [Finset.mem_insert, hc]
        by_cases hmem2 : c ∈ visitLoop b g0
            (if adjacentMinesOn b g coord.1 coord.2 = 0 then
              rest ++ (b.adjacentList coord.1 coord.2).filter fun c =>
                decide (c ∉ insert coord seen)
            else rest) (insert coord seen) ∧ c ∉ seen
        · rw [if_pos (hcnd.mpr hmem2), if_pos hmem2,
            writeTile_congr b hmf0 (Function.update_noteq hc _ _)]
        · rw [if_neg (fun h => hmem2 (hcnd.mp h)), if_neg hmem2]
    · have hsplit : visitLoop b g0
          (if adjacentMinesOn b g coord.1 coord.2 = 0 then
            rest ++ (b.adjacentList coord.1 coord.2).filter fun c =>
              decide (c ∉ insert coord seen)
          else rest) (insert coord seen) \ seen
          = insert coord (visitLoop b g0
              (if adjacentMinesOn b g coord.1 coord.2 = 0 then
                rest ++ (b.adjacentList coord.1 coord.2).filter fun c =>
                  decide (c ∉ insert coord seen)
              else rest) (insert coord seen) \ insert coord seen) := by
        ext d
        by_cases hd : d = coord
        · subst hd
          constructor
          · intro _
            exact Finset.mem_insert_self _ _
          · intro _
            exact Finset.mem_sdiff.mpr ⟨hcoordV, hmem⟩
        · simp only [Finset.mem_sdiff, Finset.mem_insert, hd, false_or, or_false,
            not_or]
      rw [hte, hsplit, Finset.filter_insert]
      by_cases hb : (!(g0 coord).mine && !(g0 coord).flagged) = true
      · rw [if_pos hb, if_pos hb, Finset.insert_union, Finset.union_insert]
      · rw [if_neg hb, if_neg hb]

theorem floodReach_not_mine (b : Board) (s0 : Coordinate)
    (h0 : (b.grid s0).mine = false) :
    ∀ c, FloodReach b s0 c → (b.grid c).mine = false := by
  intro c hc
  induction hc with
  | start => exact h0
  | @step c d hr ham hadj ih =>
    unfold Board.adjacentMines adjacentMinesOn at ham
    have hempty := Finset.card_eq_zero.mp ham
    cases hb : (b.grid d).mine with
    | false => rfl
    | true =>
      exfalso
      have hdmem : d ∈ (b.adjacent c.1 c.2).filter fun e => (b.grid e).mine = true :=
        Finset.mem_filter.mpr ⟨hadj, hb⟩
      rw [hempty] at hdmem
      exact absurd hdmem (Finset.not_mem_empty d)

theorem visitLoop_sound (b : Board) (s0 : Coordinate) :
    ∀ (queue : List Coordinate) (seen : Finset Coordinate),
      (∀ c ∈ queue, FloodReach b s0 c) → (∀ c ∈ seen, FloodReach b s0 c) →
      ∀ c ∈ visitLoop b b.grid queue seen, FloodReach b s0 c := by
  intro queue seen
  induction queue, seen using visitLoop.induct b b.grid with
  | case1 seen =>
    intro _ hseen c hc
    rw [visitLoop_nil] at hc
    exact hseen c hc
  | case2 seen coord rest hmem ih =>
    intro hq hseen c hc
    rw [visitLoop_cons_mem b b.grid rest hmem] at hc
    exact ih (fun d hd => hq d (List.mem_cons_of_mem _ hd)) hseen c hc
  | case3 seen coord rest hmem ih =>
    intro hq hseen c hc
    rw [visitLoop_cons_not_mem b b.grid rest hmem] at hc
    refine ih ?_ ?_ c hc
    · intro d hd
      split at hd
      · rcases List.mem_append.mp hd with h | h
        · exact hq d (List.mem_cons_of_mem _ h)
        · rename_i ham
          refine FloodReach.step (hq coord (List.mem_cons_self _ _)) ham ?_
          exact List.mem_toFinset.mpr (List.mem_of_mem_filter h)
      · exact hq d (List.mem_cons_of_mem _ hd)
    · intro d hd
      rcases Finset.mem_insert.mp hd with h | h
      · subst h
        exact hq d (List.mem_cons_self _ _)
      · exact hseen d h

theorem visitLoop_closed (b : Board) (g : Coordinate → Tile) :
    ∀ (queue : List Coordinate) (seen : Finset Coordinate),
      (∀ c ∈ seen, adjacentMinesOn b g c.1 c.2 = 0 →
        ∀ d ∈ b.adjacentList c.1 c.2, d ∈ seen ∨ d ∈ queue) →
      ∀ c ∈ visitLoop b g queue seen, adjacentMinesOn b g c.1 c.2 = 0 →
        ∀ d ∈ b.adjacentList c.1 c.2, d ∈ visitLoop b g queue seen := by
  intro queue seen
  induction queue, seen using visitLoop.induct b g with
  | case1 seen =>
    intro hinv c hc ham d hd
    rw [visitLoop_nil] at hc ⊢
    rcases hinv c hc ham d hd with h | h
    · exact h
    · cases h
  | case2 seen coord rest hmem ih =>
    intro hinv c hc ham d hd
    rw [visitLoop_cons_mem b g rest hmem] at hc ⊢
    refine ih ?_ c hc ham d hd
    intro c' hc' ham' d' hd'
    rcases hinv c' hc' ham' d' hd' with h | h
    · exact Or.inl h
    · rcases List.mem_cons.mp h with h2 | h2
      · exact Or.inl (h2 ▸ hmem)
      · exact Or.inr h2
  | case3 seen coord rest hmem ih =>
    intro hinv c hc ham d hd
    rw [visitLoop_cons_not_mem b g rest hmem] at hc ⊢
    refine ih ?_ c hc ham d hd
    intro c' hc' ham' d' hd'
    rcases Finset.mem_insert.mp hc' with h | h
    · subst h
      rw [dif_pos ham']
      by_cases hd2 : d' ∈ insert c' seen
      · exact Or.inl hd2
      · refine Or.inr (List.mem_append_right _ ?_)
        exact List.mem_filter.mpr ⟨hd', decide_eq_true hd2⟩
    · rcases hinv c' h ham' d' hd' with h2 | h2
      · exact Or.inl (Finset.mem_insert_of_mem h2)
      · rcases List.mem_cons.mp h2 with h3 | h3
        · exact Or.inl (h3 ▸ Finset.mem_insert_self _ _)
        · refine Or.inr ?_
          split
          · exact List.mem_append_left _ h3
          · exact h3

theorem visitLoop_complete (b : Board) (s0 : Coordinate) :
    ∀ c, FloodReach b s0 c → c ∈ visitLoop b b.grid [s0] ∅ := by
  intro c hc
  induction hc with
  | start => exact visitLoop_queue_subset b b.grid [s0] ∅ s0 (List.mem_cons_self _ _)
  | @step c d hr ham hadj ih =>
    refine visitLoop_closed b b.grid [s0] ∅ ?_ c ih ham d ?_
    · intro c' hc'
      exact absurd hc' (Finset.not_mem_empty c')
    · exact List.mem_toFinset.mp hadj

theorem visitLoop_cells (b : Board) (g : Coordinate → Tile) :
    ∀ (queue : List Coordinate) (seen : Finset Coordinate),
      (∀ c ∈ queue, c ∈ b.cells) → (∀ c ∈ seen, c ∈ b.cells) →
      ∀ c ∈ visitLoop b g queue seen, c ∈ b.cells := by
  intro queue seen
  induction queue, seen using visitLoop.induct b g with
  | case1 seen =>
    intro _ hseen c hc
    rw [visitLoop_nil] at hc
    exact hseen c hc
  | case2 seen coord rest hmem ih =>
    intro hq hseen c hc
    rw [visitLoop_cons_mem b g rest hmem] at hc
    exact ih (fun d hd => hq d (List.mem_cons_of_mem _ hd)) hseen c hc
  | case3 seen coord rest hmem ih =>
    intro hq hseen c hc
    rw [visitLoop_cons_not_mem b g rest hmem] at hc
    refine ih ?_ ?_ c hc
    · intro d hd
      split at hd
      · rcases List.mem_append.mp hd with h | h
        · exact hq d (List.mem_cons_of_mem _ h)
        · exact adjacentList_mem_cells b coord.1 coord.2 (List.mem_of_mem_filter h)
      · exact hq d (List.mem_cons_of_mem _ hd)
    · intro d hd
      rcases Finset.mem_insert.mp hd with h | h
      · subst h
        exact hq d (List.mem_cons_self _ _)
      · exact hseen d h

theorem expose_mine_eq (b : Board) (i j : Nat) (hm : (b.grid (i, j)).mine = true) :
    b.expose i j =
      ({ b with grid := Function.update b.grid (i, j) { b.grid (i, j) with exposed := true } },
        {(i, j)}) := by
  rw [Board.expose, if_pos hm]

theorem expose_not_mine_eq (b : Board) (i j : Nat) (hm : (b.grid (i, j)).mine = false) :
    b.expose i j =
      ({ b with grid := fun c =>
            if c ∈ visitLoop b b.grid [(i, j)] ∅ then writeTile b b.grid c else b.grid c },
        (visitLoop b b.grid [(i, j)] ∅).filter
          fun c => (!(b.grid c).mine && !(b.grid c).flagged) = true) := by
  have hmine_ne : ¬ ((b.grid (i, j)).mine = true) := by
    rw [hm]
    exact Bool.false_ne_true
  rw [Board.expose, if_neg hmine_ne]
  show ({ b with grid := (exposeLoop b b.grid [(i, j)] ∅ ∅).1 },
      (exposeLoop b b.grid [(i, j)] ∅ ∅).2) = _
  rw [exposeLoop_eq b b.grid b.grid [(i, j)] ∅ ∅ (MF.refl b.grid)]
  simp only [Prod.mk.injEq]
  constructor
  · congr 1
    funext c
    by_cases hc : c ∈ visitLoop b b.grid [(i, j)] ∅
    · rw [if_pos ⟨hc, Finset.not_mem_empty c⟩, if_pos hc]
    · rw [if_neg (fun h2 => hc h2.1), if_neg hc]
  · rw [Finset.sdiff_empty, Finset.empty_union]

theorem expose_scalars (b : Board) (i j : Nat) :
    (b.expose i j).1.nrows = b.nrows ∧ (b.expose i j).1.ncolumns = b.ncolumns
    ∧ (b.expose i j).1.nmines = b.nmines ∧ (b.expose i j).1.nflagged = b.nflagged := by
  rw [Board.expose]
  split
  · exact ⟨rfl, rfl, rfl, rfl⟩
  · exact ⟨rfl, rfl, rfl, rfl⟩

theorem flag_snd (b : Board) (i j : Nat) :
    (b.flag i j).2 = !(b.grid (i, j)).flagged := by
  rw [Board.flag]
  split
  · split
    · rfl
    · rfl
  · split
    · rfl
    · rfl

theorem flag_scalars (b : Board) (i j : Nat) :
    (b.flag i j).1.nrows = b.nrows ∧ (b.flag i j).1.ncolumns = b.ncolumns
    ∧ (b.flag i j).1.nmines = b.nmines := by
  rw [Board.flag]
  split
  · split
    · exact ⟨rfl, rfl, rfl⟩
    · exact ⟨rfl, rfl, rfl⟩
  · split
    · exact ⟨rfl, rfl, rfl⟩
    · exact ⟨rfl, rfl, rfl⟩

theorem flag_eq_unflag (b : Board) (i j : Nat) (hf : (b.grid (i, j)).flagged = true)
    (hn : 1 ≤ b.nflagged) :
    (b.flag i j).1 = { b with
      grid := Function.update b.grid (i, j) { b.grid (i, j) with flagged := false },
      nflagged := b.nflagged - 1 } := by
  rw [Board.flag]
  rw [if_pos hf, if_pos hn, hf]
  rfl

theorem flag_eq_unflag_zero (b : Board) (i j : Nat) (hf : (b.grid (i, j)).flagged = true)
    (hn : ¬ 1 ≤ b.nflagged) :
    (b.flag i j).1 = b := by
  rw [Board.flag]
  rw [if_pos hf, if_neg hn]

theorem flag_eq_setflag (b : Board) (i j : Nat) (hf : (b.grid (i, j)).flagged = false)
    (hok : b.nflagged + 1 ≤ b.nmines ∧ (b.grid (i, j)).exposed = false) :
    (b.flag i j).1 = { b with
      grid := Function.update b.grid (i, j) { b.grid (i, j) with flagged := true },
      nflagged := b.nflagged + 1 } := by
  rw [Board.flag]
  rw [if_neg (by rw [hf]; exact Bool.false_ne_true), if_pos hok, hf]
  rfl

theorem flag_eq_noop (b : Board) (i j : Nat) (hf : (b.grid (i, j)).flagged = false)
    (hno : ¬ (b.nflagged + 1 ≤ b.nmines ∧ (b.grid (i, j)).exposed = false)) :
    (b.flag i j).1 = b := by
  rw [Board.flag]
  rw [if_neg (by rw [hf]; exact Bool.false_ne_true), if_neg hno]

theorem visitLoop_single_of_pos (b : Board) (g : Coordinate → Tile) (c0 : Coordinate)
    (ha : adjacentMinesOn b g c0.1 c0.2 ≠ 0) :
    visitLoop b g [c0] ∅ = {c0} := by
  rw [visitLoop_cons_not_mem b g [] (Finset.not_mem_empty c0), if_neg ha, visitLoop_nil]
  rfl

/-- C1: the number of mines on a constructed board is the number of DISTINCT
drawn coordinates, which falls short of the requested `mine_count` whenever
`random.choices` (sampling with replacement) repeats a coordinate.  On a 1×2
board with `nmines = 2` and the draw `[(0,0), (0,0)]` — a possible output of
`random.choices` — only one tile is a mine. -/
theorem C1_mine_count_bug :
    (Board.init 1 2 2 [((0 : Nat), (0 : Nat)), (0, 0)]).mineCount = 1
    ∧ (Board.init 1 2 2 [((0 : Nat), (0 : Nat)), (0, 0)]).nmines = 2 := by
  decide

/-- C2: with no tile flagged, exposing an in-bounds, unexposed, non-mine tile
with zero adjacent mines exposes exactly the `FloodReach` region (the maximal
connected zero-count region through the start together with its numbered
boundary), marks every tile of that region exposed, stores the positive
adjacent-mine count on each boundary tile, and leaves every tile outside the
region untouched. -/
theorem C2_flood_fill (b : Board) (i j : Nat)
    (hnf : ∀ c ∈ b.cells, (b.grid c).flagged = false)
    (hi : i < b.nrows) (hj : j < b.ncolumns)
    (hm : (b.grid (i, j)).mine = false)
    (hne : (b.grid (i, j)).exposed = false)
    (hz : b.adjacentMines i j = 0) :
    (∀ c, c ∈ (b.expose i j).2 ↔ FloodReach b (i, j) c)
    ∧ (∀ c, c ∈ (b.expose i j).2 → ((b.expose i j).1.grid c).exposed = true)
    ∧ (∀ c, c ∈ (b.expose i j).2 → 0 < b.adjacentMines c.1 c.2 →
        ((b.expose i j).1.grid c).adjacent_mines = b.adjacentMines c.1 c.2)
    ∧ (∀ c, c ∉ (b.expose i j).2 → (b.expose i j).1.grid c = b.grid c) := by
  have hexp := expose_not_mine_eq b i j hm
  have hVsub : ∀ c ∈ visitLoop b b.grid [(i, j)] ∅, FloodReach b (i, j) c := by
    refine visitLoop_sound b (i, j) [(i, j)] ∅ ?_ ?_
    · intro c hc
      rcases List.mem_cons.mp hc with h | h
      · rw [h]
        exact FloodReach.start
      · cases h
    · intro c hc
      exact absurd hc (Finset.not_mem_empty c)
  have hVcells : ∀ c ∈ visitLoop b b.grid [(i, j)] ∅, c ∈ b.cells := by
    refine visitLoop_cells b b.grid [(i, j)] ∅ ?_ ?_
    · intro c hc
      rcases List.mem_cons.mp hc with h | h
      · rw [h]
        simp only [Board.cells, Finset.mem_product, Finset.mem_range]
        exact ⟨hi, hj⟩
      · cases h
    · intro c hc
      exact absurd hc (Finset.not_mem_empty c)
  have hVte : ∀ c ∈ visitLoop b b.grid [(i, j)] ∅,
      (!(b.grid c).mine && !(b.grid c).flagged) = true := by
    intro c hc
    rw [floodReach_not_mine b (i, j) hm c (hVsub c hc), hnf c (hVcells c hc)]
    rfl
  have hsnd : (b.expose i j).2 = visitLoop b b.grid [(i, j)] ∅ := by
    rw [hexp]
    exact Finset.filter_eq_self.mpr hVte
  have hgrid : ∀ c, (b.expose i j).1.grid c
      = if c ∈ visitLoop b b.grid [(i, j)] ∅ then writeTile b b.grid c else b.grid c := by
    intro c
    rw [hexp]
  refine ⟨?_, ?_, ?_, ?_⟩
  · intro c
    rw [hsnd]
    exact ⟨fun hc => hVsub c hc, fun hr => visitLoop_complete b (i, j) c hr⟩
  · intro c hc
    rw [hsnd] at hc
    rw [hgrid c, if_pos hc]
    exact hVte c hc
  · intro c hc hpos
    rw [hsnd] at hc
    rw [hgrid c, if_pos hc]
    show (if adjacentMinesOn b b.grid c.1 c.2 = 0 then (b.grid c).adjacent_mines
        else adjacentMinesOn b b.grid c.1 c.2) = b.adjacentMines c.1 c.2
    have hdefeq : b.adjacentMines c.1 c.2 = adjacentMinesOn b b.grid c.1 c.2 := rfl
    rw [if_neg (by omega)]
    exact hdefeq.symm
  · intro c hc
    rw [hsnd] at hc
    rw [hgrid c, if_neg hc]

/-- Witness for C2 on a concrete 1×3 board with its mine at `(0, 2)`:
`expose(0, 0)` starts on a zero-count tile. -/
theorem C2_flood_fill_witness :
    (∀ c, c ∈ ((Board.init 1 3 1 [((0 : Nat), (2 : Nat))]).expose 0 0).2 ↔
        FloodReach (Board.init 1 3 1 [((0 : Nat), (2 : Nat))]) (0, 0) c)
    ∧ (∀ c, c ∈ ((Board.init 1 3 1 [((0 : Nat), (2 : Nat))]).expose 0 0).2 →
        (((Board.init 1 3 1 [((0 : Nat), (2 : Nat))]).expose 0 0).1.grid c).exposed = true)
    ∧ (∀ c, c ∈ ((Board.init 1 3 1 [((0 : Nat), (2 : Nat))]).expose 0 0).2 →
        0 < (Board.init 1 3 1 [((0 : Nat), (2 : Nat))]).adjacentMines c.1 c.2 →
        (((Board.init 1 3 1 [((0 : Nat), (2 : Nat))]).expose 0 0).1.grid c).adjacent_mines
          = (Board.init 1 3 1 [((0 : Nat), (2 : Nat))]).adjacentMines c.1 c.2)
    ∧ (∀ c, c ∉ ((Board.init 1 3 1 [((0 : Nat), (2 : Nat))]).expose 0 0).2 →
        ((Board.init 1 3 1 [((0 : Nat), (2 : Nat))]).expose 0 0).1.grid c
          = (Board.init 1 3 1 [((0 : Nat), (2 : Nat))]).grid c) :=
  C2_flood_fill (Board.init 1 3 1 [((0 : Nat), (2 : Nat))]) 0 0 (by decide) (by decide)
    (by decide) (by decide) (by decide) (by decide)

/-- C3 fails as stated: on a 1×1 board whose only tile is a mine, flagging it
and then exposing it is NOT a no-op — the mine branch of `expose` ignores the
flag, marks the flagged tile exposed and returns it. -/
theorem C3_counterexample :
    ((((Board.init 1 1 1 [((0 : Nat), (0 : Nat))]).flag 0 0).1.grid (0, 0)).flagged = true
      ∧ ((((Board.init 1 1 1 [((0 : Nat), (0 : Nat))]).flag 0 0).1.grid (0, 0)).exposed = false))
    ∧ ((((((Board.init 1 1 1 [((0 : Nat), (0 : Nat))]).flag 0 0).1.expose 0 0).1.grid
          (0, 0)).exposed = true)
      ∧ ((((Board.init 1 1 1 [((0 : Nat), (0 : Nat))]).flag 0 0).1.expose 0 0).2 ≠ ∅)) := by
  decide

/-- C3 amended: `expose` on a flagged tile is a no-op only when the tile is
neither a mine (a flagged mine is exposed, flag retained) nor a zero-count
tile (a flagged zero-count tile's neighbors are still enqueued).  For a
flagged non-mine tile with a positive adjacent-mine count the call exposes no
tile, keeps the flag, and returns the empty set. -/
theorem C3_amended (b : Board) (i j : Nat)
    (hi : i < b.nrows) (hj : j < b.ncolumns)
    (hf : (b.grid (i, j)).flagged = true)
    (hm : (b.grid (i, j)).mine = false)
    (ha : b.adjacentMines i j ≠ 0) :
    (b.expose i j).2 = ∅
    ∧ (∀ c, ((b.expose i j).1.grid c).exposed = true → (b.grid c).exposed = true)
    ∧ ((b.expose i j).1.grid (i, j)).flagged = true := by
  have hV : visitLoop b b.grid [(i, j)] ∅ = {(i, j)} :=
    visitLoop_single_of_pos b b.grid (i, j) ha
  have hexp := expose_not_mine_eq b i j hm
  rw [hV] at hexp
  have hte : (!(b.grid (i, j)).mine && !(b.grid (i, j)).flagged) = false := by
    rw [hf]
    simp
  have hgrid : ∀ c, (b.expose i j).1.grid c
      = if c ∈ ({(i, j)} : Finset Coordinate) then writeTile b b.grid c else b.grid c := by
    intro c
    rw [hexp]
  refine ⟨?_, ?_, ?_⟩
  · rw [hexp]
    show ({(i, j)} : Finset Coordinate).filter _ = ∅
    rw [Finset.filter_singleton, if_neg]
    rw [hte]
    exact Bool.false_ne_true
  · intro c hc
    rw [hgrid c] at hc
    by_cases hcc : c ∈ ({(i, j)} : Finset Coordinate)
    · rw [if_pos hcc] at hc
      have hfalse : (writeTile b b.grid c).exposed = false := by
        rw [Finset.mem_singleton.mp hcc]
        exact hte
      rw [hfalse] at hc
      exact absurd hc Bool.false_ne_true
    · rw [if_neg hcc] at hc
      exact hc
  · rw [hgrid (i, j), if_pos (Finset.mem_singleton.mpr rfl)]
    exact hf

/-- Witness for the amended C3: a 1×2 board with its mine at `(0, 0)`; tile
`(0, 1)` is flagged, not a mine, and has one adjacent mine. -/
theorem C3_amended_witness :
    ((((Board.init 1 2 1 [((0 : Nat), (0 : Nat))]).flag 0 1).1.expose 0 1).2 = ∅
    ∧ (∀ c, (((((Board.init 1 2 1 [((0 : Nat), (0 : Nat))]).flag 0 1).1.expose 0 1).1.grid
          c).exposed = true) →
        ((((Board.init 1 2 1 [((0 : Nat), (0 : Nat))]).flag 0 1).1.grid c).exposed = true))
    ∧ (((((Board.init 1 2 1 [((0 : Nat), (0 : Nat))]).flag 0 1).1.expose 0 1).1.grid
        (0, 1)).flagged = true)) :=
  C3_amended (((Board.init 1 2 1 [((0 : Nat), (0 : Nat))]).flag 0 1).1) 0 1 (by decide)
    (by decide) (by decide) (by decide) (by decide)

/-- C4 fails in its `is_won()` conjunct: on a 1×1 board whose only tile is a
mine, exposing the mine makes `win` return `true`, because `Board.win` counts
the exposed mine toward `total_exposed` — contradicting its own docstring
("all mines are correctly flagged and all tiles are exposed"). -/
theorem C4_win_after_detonation_bug :
    ((Board.init 1 1 1 [((0 : Nat), (0 : Nat))]).expose 0 0).2 = {(0, 0)}
    ∧ (((Board.init 1 1 1 [((0 : Nat), (0 : Nat))]).expose 0 0).1.grid (0, 0)).exposed = true
    ∧ ((Board.init 1 1 1 [((0 : Nat), (0 : Nat))]).expose 0 0).1.win = true := by
  decide

/-- C5 fails: flag the lone mine of a 1×1 board, then expose it.  The mine
branch of `expose` marks the flagged mine exposed without clearing the flag,
so a tile is observed with `exposed = true` and `flagged = true` in a state
reachable by one `flag` call followed by one `expose` call. -/
theorem C5_mutual_exclusion_bug :
    (((((Board.init 1 1 1 [((0 : Nat), (0 : Nat))]).flag 0 0).1.expose 0 0).1.grid
        (0, 0)).exposed = true)
    ∧ (((((Board.init 1 1 1 [((0 : Nat), (0 : Nat))]).flag 0 0).1.expose 0 0).1.grid
        (0, 0)).flagged = true) := by
  decide

/-- C6 fails as stated: on a 1×1 board with `nmines = 0` the flag budget is
exhausted from the start, so `flag(0, 0)` is a no-op, yet it returns `True`
while the tile's `flagged` field stays `False`. -/
theorem C6_counterexample :
    ((Board.init 1 1 0 []).flag 0 0).2 = true
    ∧ (((Board.init 1 1 0 []).flag 0 0).1.grid (0, 0)).flagged = false := by
  decide

/-- C6 amended: `flag(i, j)` always returns the NEGATION of the tile's flagged
state before the call (`not was_flagged`), whether or not the call changed
anything; on a no-op this differs from the tile's actual, unchanged state. -/
theorem C6_amended (b : Board) (i j : Nat) :
    (b.flag i j).2 = !(b.grid (i, j)).flagged :=
  flag_snd b i j

/-- C10 fails as stated: `Board.__init__` performs no validation at all, so a
board with `mine_count > nrows * ncolumns` is constructed without any failure;
its `nmines` field records the requested count while the actual number of
mines cannot exceed the number of tiles. -/
theorem C10_counterexample :
    (Board.init 1 1 5 [((0 : Nat), (0 : Nat)), (0, 0), (0, 0), (0, 0), (0, 0)]).nmines = 5
    ∧ (Board.init 1 1 5
        [((0 : Nat), (0 : Nat)), (0, 0), (0, 0), (0, 0), (0, 0)]).mineCount = 1 := by
  decide

/-- C10 amended: construction never rejects its arguments (the CLI layers
validate instead); it produces a board whose `nmines` field is the requested
count and whose actual mine count is at most `nrows * ncolumns`, so the two
differ whenever `mine_count` exceeds the tile count. -/
theorem C10_amended (nrows ncolumns nmines : Nat) (draws : List Coordinate) :
    (Board.init nrows ncolumns nmines draws).nmines = nmines
    ∧ (Board.init nrows ncolumns nmines draws).mineCount ≤ nrows * ncolumns := by
  constructor
  · rfl
  · have h1 : (Board.init nrows ncolumns nmines draws).mineCount
        ≤ (Board.init nrows ncolumns nmines draws).cells.card :=
      Finset.card_filter_le _ _
    have h2 : (Board.init nrows ncolumns nmines draws).cells.card = nrows * ncolumns := by
      show (Finset.range nrows ×ˢ Finset.range ncolumns).card = nrows * ncolumns
      rw [Finset.card_product, Finset.card_range, Finset.card_range]
    omega

theorem tile_ext {t1 t2 : Tile} (h1 : t1.mine = t2.mine) (h2 : t1.exposed = t2.exposed)
    (h3 : t1.flagged = t2.flagged) (h4 : t1.adjacent_mines = t2.adjacent_mines) :
    t1 = t2 := by
  cases t1
  cases t2
  rw [Tile.mk.injEq]
  exact ⟨h1, h2, h3, h4⟩

theorem adjacentList_congr (b b' : Board) (hr : b'.nrows = b.nrows)
    (hc : b'.ncolumns = b.ncolumns) (i j : Nat) :
    b'.adjacentList i j = b.adjacentList i j := by
  unfold Board.adjacentList
  rw [hr, hc]

theorem adjacentMinesOn_congr2 (b b' : Board) {g g' : Coordinate → Tile}
    (hr : b'.nrows = b.nrows) (hc : b'.ncolumns = b.ncolumns) (hmf : MF g' g) (i j : Nat) :
    adjacentMinesOn b' g' i j = adjacentMinesOn b g i j := by
  unfold adjacentMinesOn Board.adjacent
  rw [adjacentList_congr b b' hr hc]
  congr 1
  refine Finset.filter_congr ?_
  intro c _
  rw [(hmf c).1]

theorem visitLoop_congr (b b' : Board) (g g' : Coordinate → Tile)
    (hr : b'.nrows = b.nrows) (hc : b'.ncolumns = b.ncolumns) (hmf : MF g' g) :
    ∀ (queue : List Coordinate) (seen : Finset Coordinate),
      visitLoop b' g' queue seen = visitLoop b g queue seen := by
  intro queue seen
  induction queue, seen using visitLoop.induct b g with
  | case1 seen =>
    rw [visitLoop_nil, visitLoop_nil]
  | case2 seen coord rest hmem ih =>
    rw [visitLoop_cons_mem b' g' rest hmem, visitLoop_cons_mem b g rest hmem, ih]
  | case3 seen coord rest hmem ih =>
    rw [visitLoop_cons_not_mem b' g' rest hmem, visitLoop_cons_not_mem b g rest hmem,
      adjacentMinesOn_congr2 b b' hr hc hmf coord.1 coord.2,
      adjacentList_congr b b' hr hc coord.1 coord.2]
    exact ih

/-- Running `expose` a second time at the same non-mine coordinate changes
nothing: the loop's control flow depends only on the `mine` and `flagged`
fields, which the first call did not change, so the second call traverses the
same region, returns the same set, and rewrites every visited tile to the
value it already has. -/
theorem expose_idem (b : Board) (i j : Nat) (hm : (b.grid (i, j)).mine = false) :
    (b.expose i j).1.expose i j = ((b.expose i j).1, (b.expose i j).2) := by
  have hexp := expose_not_mine_eq b i j hm
  have hmf2 : MF ((b.expose i j).1.grid) b.grid := by
    intro c
    have hgrid : (b.expose i j).1.grid c
        = if c ∈ visitLoop b b.grid [(i, j)] ∅ then writeTile b b.grid c else b.grid c := by
      rw [hexp]
    rw [hgrid]
    by_cases hc : c ∈ visitLoop b b.grid [(i, j)] ∅
    · constructor <;> rw [if_pos hc] <;> rfl
    · constructor <;> rw [if_neg hc] <;> rfl
  have hscal := expose_scalars b i j
  have hm1 : (((b.expose i j).1).grid (i, j)).mine = false := (hmf2 (i, j)).1.trans hm
  have hexp2 := expose_not_mine_eq ((b.expose i j).1) i j hm1
  have hVcongr : visitLoop ((b.expose i j).1) ((b.expose i j).1.grid) [(i, j)] ∅
      = visitLoop b b.grid [(i, j)] ∅ :=
    visitLoop_congr b ((b.expose i j).1) b.grid ((b.expose i j).1.grid)
      hscal.1 hscal.2.1 hmf2 [(i, j)] ∅
  rw [hexp2, hVcongr]
  simp only [Prod.mk.injEq]
  constructor
  · have hF : (fun c => if c ∈ visitLoop b b.grid [(i, j)] ∅
        then writeTile ((b.expose i j).1) ((b.expose i j).1.grid) c
        else (b.expose i j).1.grid c) = (b.expose i j).1.grid := by
      funext c
      by_cases hc : c ∈ visitLoop b b.grid [(i, j)] ∅
      · rw [if_pos hc]
        have hgc : (b.expose i j).1.grid c = writeTile b b.grid c := by
          have hgrid : (b.expose i j).1.grid c
              = if c ∈ visitLoop b b.grid [(i, j)] ∅ then writeTile b b.grid c
                else b.grid c := by
            rw [hexp]
          rw [hgrid, if_pos hc]
        have ham : adjacentMinesOn ((b.expose i j).1) ((b.expose i j).1.grid) c.1 c.2
            = adjacentMinesOn b b.grid c.1 c.2 :=
          adjacentMinesOn_congr2 b ((b.expose i j).1) hscal.1 hscal.2.1 hmf2 c.1 c.2
        rw [hgc]
        refine tile_ext ?_ ?_ ?_ ?_
        · rw [writeTile_mine, writeTile_mine]
          exact (hmf2 c).1
        · show (!((b.expose i j).1.grid c).mine && !((b.expose i j).1.grid c).flagged)
            = (!(b.grid c).mine && !(b.grid c).flagged)
          rw [(hmf2 c).1, (hmf2 c).2]
        · rw [writeTile_flagged, writeTile_flagged]
          exact (hmf2 c).2
        · show (if adjacentMinesOn ((b.expose i j).1) ((b.expose i j).1.grid) c.1 c.2 = 0
              then ((b.expose i j).1.grid c).adjacent_mines
              else adjacentMinesOn ((b.expose i j).1) ((b.expose i j).1.grid) c.1 c.2)
            = (if adjacentMinesOn b b.grid c.1 c.2 = 0 then (b.grid c).adjacent_mines
              else adjacentMinesOn b b.grid c.1 c.2)
          rw [ham]
          by_cases ham0 : adjacentMinesOn b b.grid c.1 c.2 = 0
          · rw [if_pos ham0, if_pos ham0, hgc]
            show (if adjacentMinesOn b b.grid c.1 c.2 = 0 then (b.grid c).adjacent_mines
                else adjacentMinesOn b b.grid c.1 c.2) = (b.grid c).adjacent_mines
            rw [if_pos ham0]
          · rw [if_neg ham0, if_neg ham0]
      · rw [if_neg hc]
    rw [hF]
  · have hfeq : Finset.filter (fun c => (!((b.expose i j).1.grid c).mine
        && !((b.expose i j).1.grid c).flagged) = true) (visitLoop b b.grid [(i, j)] ∅)
        = Finset.filter (fun c => (!(b.grid c).mine && !(b.grid c).flagged) = true)
          (visitLoop b b.grid [(i, j)] ∅) := by
      refine Finset.filter_congr ?_
      intro c _
      rw [(hmf2 c).1, (hmf2 c).2]
    rw [hfeq, hexp]

/-- C7 fails in its "empty result" conjunct: on a 1×2 board with the mine at
`(0, 0)`, exposing `(0, 1)` twice returns `{(0, 1)}` both times — the second
call re-reports the already-exposed tile instead of the empty set. -/
theorem C7_counterexample :
    (((Board.init 1 2 1 [((0 : Nat), (0 : Nat))]).expose 0 1).1.expose 0 1).2 ≠ ∅ := by
  rw [expose_idem (Board.init 1 2 1 [((0 : Nat), (0 : Nat))]) 0 1 (by decide)]
  rw [expose_not_mine_eq (Board.init 1 2 1 [((0 : Nat), (0 : Nat))]) 0 1 (by decide)]
  rw [visitLoop_single_of_pos (Board.init 1 2 1 [((0 : Nat), (0 : Nat))])
    (Board.init 1 2 1 [((0 : Nat), (0 : Nat))]).grid (0, 1) (by decide)]
  decide

/-- C7 amended: a second `expose` at the same non-mine coordinate is a no-op
on the board state (so `total_exposed` is unchanged), but it returns the SAME
set of coordinates as the first call — not the empty set. -/
theorem C7_amended (b : Board) (i j : Nat) (hm : (b.grid (i, j)).mine = false) :
    ((b.expose i j).1.expose i j).1 = (b.expose i j).1
    ∧ ((b.expose i j).1.expose i j).2 = (b.expose i j).2
    ∧ ((b.expose i j).1.expose i j).1.total_exposed = (b.expose i j).1.total_exposed := by
  have h := expose_idem b i j hm
  exact ⟨by rw [h], by rw [h], by rw [h]⟩

/-- Witness for the amended C7 on the same 1×2 board. -/
theorem C7_amended_witness :
    ((((Board.init 1 2 1 [((0 : Nat), (0 : Nat))]).expose 0 1).1.expose 0 1).1
        = ((Board.init 1 2 1 [((0 : Nat), (0 : Nat))]).expose 0 1).1)
    ∧ ((((Board.init 1 2 1 [((0 : Nat), (0 : Nat))]).expose 0 1).1.expose 0 1).2
        = ((Board.init 1 2 1 [((0 : Nat), (0 : Nat))]).expose 0 1).2)
    ∧ ((((Board.init 1 2 1 [((0 : Nat), (0 : Nat))]).expose 0 1).1.expose 0 1).1.total_exposed
        = ((Board.init 1 2 1 [((0 : Nat), (0 : Nat))]).expose 0 1).1.total_exposed) :=
  C7_amended (Board.init 1 2 1 [((0 : Nat), (0 : Nat))]) 0 1 (by decide)

theorem mem_cells_of_lt (b : Board) {i j : Nat} (hi : i < b.nrows) (hj : j < b.ncolumns) :
    ((i, j) : Coordinate) ∈ b.cells := by
  simp only [Board.cells, Finset.mem_product, Finset.mem_range]
  exact ⟨hi, hj⟩

theorem expose_grid_flagged (b : Board) (i j : Nat) (c : Coordinate) :
    ((b.expose i j).1.grid c).flagged = (b.grid c).flagged := by
  cases hm : (b.grid (i, j)).mine with
  | true =>
    have hgrid : (b.expose i j).1.grid c
        = Function.update b.grid (i, j) { b.grid (i, j) with exposed := true } c := by
      rw [expose_mine_eq b i j hm]
    rw [hgrid]
    by_cases hcc : c = (i, j)
    · subst hcc
      rw [Function.update_same]
    · rw [Function.update_noteq hcc]
  | false =>
    have hgrid : (b.expose i j).1.grid c
        = if c ∈ visitLoop b b.grid [(i, j)] ∅ then writeTile b b.grid c else b.grid c := by
      rw [expose_not_mine_eq b i j hm]
    rw [hgrid]
    by_cases hcc : c ∈ visitLoop b b.grid [(i, j)] ∅
    · rw [if_pos hcc, writeTile_flagged]
    · rw [if_neg hcc]

theorem expose_mono (b : Board) (i j : Nat)
    (hinv : ∀ d, (b.grid d).exposed = true → (b.grid d).flagged = true →
      (b.grid d).mine = true)
    (c : Coordinate) (hc : (b.grid c).exposed = true) :
    ((b.expose i j).1.grid c).exposed = true := by
  cases hm : (b.grid (i, j)).mine with
  | true =>
    have hgrid : (b.expose i j).1.grid c
        = Function.update b.grid (i, j) { b.grid (i, j) with exposed := true } c := by
      rw [expose_mine_eq b i j hm]
    rw [hgrid]
    by_cases hcc : c = (i, j)
    · subst hcc
      rw [Function.update_same]
    · rw [Function.update_noteq hcc]
      exact hc
  | false =>
    have hgrid : (b.expose i j).1.grid c
        = if c ∈ visitLoop b b.grid [(i, j)] ∅ then writeTile b b.grid c else b.grid c := by
      rw [expose_not_mine_eq b i j hm]
    rw [hgrid]
    by_cases hcc : c ∈ visitLoop b b.grid [(i, j)] ∅
    · rw [if_pos hcc]
      have hreach : FloodReach b (i, j) c := by
        refine visitLoop_sound b (i, j) [(i, j)] ∅ ?_ ?_ c hcc
        · intro d hd
          rcases List.mem_cons.mp hd with h | h
          · rw [h]
            exact FloodReach.start
          · cases h
        · intro d hd
          exact absurd hd (Finset.not_mem_empty d)
      have hcm : (b.grid c).mine = false := floodReach_not_mine b (i, j) hm c hreach
      have hcf : (b.grid c).flagged = false := by
        cases hfb : (b.grid c).flagged with
        | false => rfl
        | true =>
          have hmm := hinv c hc hfb
          rw [hcm] at hmm
          exact absurd hmm Bool.false_ne_true
      show (!(b.grid c).mine && !(b.grid c).flagged) = true
      rw [hcm, hcf]
      rfl
    · rw [if_neg hcc]
      exact hc

theorem flag_grid_exposed (b : Board) (i j : Nat) (c : Coordinate) :
    ((b.flag i j).1.grid c).exposed = (b.grid c).exposed := by
  by_cases hf : (b.grid (i, j)).flagged = true
  · by_cases hn : 1 ≤ b.nflagged
    · have hgrid : (b.flag i j).1.grid c
          = Function.update b.grid (i, j) { b.grid (i, j) with flagged := false } c := by
        rw [flag_eq_unflag b i j hf hn]
      rw [hgrid]
      by_cases hcc : c = (i, j)
      · subst hcc
        rw [Function.update_same]
      · rw [Function.update_noteq hcc]
    · rw [flag_eq_unflag_zero b i j hf hn]
  · have hf2 : (b.grid (i, j)).flagged = false := by
      cases hfb : (b.grid (i, j)).flagged
      · rfl
      · exact absurd hfb hf
    by_cases hok : b.nflagged + 1 ≤ b.nmines ∧ (b.grid (i, j)).exposed = false
    · have hgrid : (b.flag i j).1.grid c
          = Function.update b.grid (i, j) { b.grid (i, j) with flagged := true } c := by
        rw [flag_eq_setflag b i j hf2 hok]
      rw [hgrid]
      by_cases hcc : c = (i, j)
      · subst hcc
        rw [Function.update_same]
      · rw [Function.update_noteq hcc]
    · rw [flag_eq_noop b i j hf2 hok]

theorem expose_efim (b : Board) (i j : Nat) (hinv : ExposedFlaggedImpliesMine b) :
    ExposedFlaggedImpliesMine (b.expose i j).1 := by
  intro c hce hcf
  cases hm : (b.grid (i, j)).mine with
  | true =>
    have hgrid : (b.expose i j).1.grid c
        = Function.update b.grid (i, j) { b.grid (i, j) with exposed := true } c := by
      rw [expose_mine_eq b i j hm]
    rw [hgrid] at hce hcf ⊢
    by_cases hcc : c = (i, j)
    · subst hcc
      rw [Function.update_same]
      exact hm
    · rw [Function.update_noteq hcc] at hce hcf ⊢
      exact hinv c hce hcf
  | false =>
    have hgrid : (b.expose i j).1.grid c
        = if c ∈ visitLoop b b.grid [(i, j)] ∅ then writeTile b b.grid c else b.grid c := by
      rw [expose_not_mine_eq b i j hm]
    rw [hgrid] at hce hcf ⊢
    by_cases hcc : c ∈ visitLoop b b.grid [(i, j)] ∅
    · rw [if_pos hcc] at hce hcf ⊢
      rw [writeTile_flagged] at hcf
      have hte : (!(b.grid c).mine && !(b.grid c).flagged) = true := hce
      rw [hcf] at hte
      simp at hte
    · rw [if_neg hcc] at hce hcf ⊢
      exact hinv c hce hcf

theorem flag_efim (b : Board) (i j : Nat) (hinv : ExposedFlaggedImpliesMine b) :
    ExposedFlaggedImpliesMine (b.flag i j).1 := by
  intro c hce hcf
  by_cases hf : (b.grid (i, j)).flagged = true
  · by_cases hn : 1 ≤ b.nflagged
    · have hgrid : ∀ d, (b.flag i j).1.grid d
          = Function.update b.grid (i, j) { b.grid (i, j) with flagged := false } d := by
        intro d
        rw [flag_eq_unflag b i j hf hn]
      rw [hgrid c] at hce hcf ⊢
      by_cases hcc : c = (i, j)
      · subst hcc
        rw [Function.update_same] at hcf
        exact absurd hcf Bool.false_ne_true
      · rw [Function.update_noteq hcc] at hce hcf ⊢
        exact hinv c hce hcf
    · rw [flag_eq_unflag_zero b i j hf hn] at hce hcf ⊢
      exact hinv c hce hcf
  · have hf2 : (b.grid (i, j)).flagged = false := by
      cases hfb : (b.grid (i, j)).flagged
      · rfl
      · exact absurd hfb hf
    by_cases hok : b.nflagged + 1 ≤ b.nmines ∧ (b.grid (i, j)).exposed = false
    · have hgrid : ∀ d, (b.flag i j).1.grid d
          = Function.update b.grid (i, j) { b.grid (i, j) with flagged := true } d := by
        intro d
        rw [flag_eq_setflag b i j hf2 hok]
      rw [hgrid c] at hce hcf ⊢
      by_cases hcc : c = (i, j)
      · subst hcc
        rw [Function.update_same] at hce
        have hex : (b.grid (i, j)).exposed = true := hce
        rw [hok.2] at hex
        exact absurd hex Bool.false_ne_true
      · rw [Function.update_noteq hcc] at hce hcf ⊢
        exact hinv c hce hcf
    · rw [flag_eq_noop b i j hf2 hok] at hce hcf ⊢
      exact hinv c hce hcf

theorem reachable_efim {b0 b : Board} (h : Reachable b0 b)
    (h0 : ExposedFlaggedImpliesMine b0) : ExposedFlaggedImpliesMine b := by
  induction h with
  | refl => exact h0
  | expose i j hr hi hj ih => exact expose_efim _ i j ih
  | flag i j hr hi hj ih => exact flag_efim _ i j ih

theorem reachable_exposed_mono {b b' : Board} (h : Reachable b b')
    (hinv : ExposedFlaggedImpliesMine b) (c : Coordinate)
    (hc : (b.grid c).exposed = true) : (b'.grid c).exposed = true := by
  induction h with
  | refl => exact hc
  | expose i j hr hi hj ih => exact expose_mono _ i j (reachable_efim hr hinv) c ih
  | flag i j hr hi hj ih =>
    rw [flag_grid_exposed]
    exact ih

/-- C9: exposure is monotonic.  In any state `b` reachable from a freshly
constructed board, once a tile is exposed, it stays exposed in every state
reachable from `b` by further `expose` and `flag` calls. -/
theorem C9_monotonic_exposure (nrows ncolumns nmines : Nat) (draws : List Coordinate)
    (b b' : Board) (c : Coordinate)
    (h1 : Reachable (Board.init nrows ncolumns nmines draws) b)
    (h2 : Reachable b b')
    (hc : (b.grid c).exposed = true) : (b'.grid c).exposed = true := by
  have h0 : ExposedFlaggedImpliesMine (Board.init nrows ncolumns nmines draws) :=
    fun d hd _ => absurd hd Bool.false_ne_true
  exact reachable_exposed_mono h2 (reachable_efim h1 h0) c hc

/-- Witness for C9: expose the mine of a 1×1 board; the tile is exposed and
stays exposed under the empty continuation. -/
theorem C9_monotonic_exposure_witness :
    ((((Board.init 1 1 1 [((0 : Nat), (0 : Nat))]).expose 0 0).1).grid (0, 0)).exposed
      = true :=
  C9_monotonic_exposure 1 1 1 [((0 : Nat), (0 : Nat))]
    ((Board.init 1 1 1 [((0 : Nat), (0 : Nat))]).expose 0 0).1
    ((Board.init 1 1 1 [((0 : Nat), (0 : Nat))]).expose 0 0).1 (0, 0)
    (Reachable.expose 0 0 (Reachable.refl _) (by decide) (by decide))
    (Reachable.refl _)
    (by decide)

theorem expose_cells (b : Board) (i j : Nat) : (b.expose i j).1.cells = b.cells := by
  unfold Board.cells
  rw [(expose_scalars b i j).1, (expose_scalars b i j).2.1]

theorem flag_cells (b : Board) (i j : Nat) : (b.flag i j).1.cells = b.cells := by
  unfold Board.cells
  rw [(flag_scalars b i j).1, (flag_scalars b i j).2.1]

theorem expose_flaggedCount (b : Board) (i j : Nat) :
    (b.expose i j).1.flaggedCount = b.flaggedCount := by
  unfold Board.flaggedCount
  rw [expose_cells b i j]
  congr 1
  refine Finset.filter_congr ?_
  intro c _
  rw [expose_grid_flagged b i j c]

theorem flag_flaggedCount_unflag (b : Board) (i j : Nat) (hij : ((i, j) : Coordinate) ∈ b.cells)
    (hf : (b.grid (i, j)).flagged = true) (hn : 1 ≤ b.nflagged) :
    (b.flag i j).1.flaggedCount = b.flaggedCount - 1 ∧ 1 ≤ b.flaggedCount := by
  have hmemS : ((i, j) : Coordinate) ∈ Finset.filter
      (fun c => (b.grid c).flagged = true) b.cells :=
    Finset.mem_filter.mpr ⟨hij, hf⟩
  have hgrid : ∀ d, (b.flag i j).1.grid d
      = Function.update b.grid (i, j) { b.grid (i, j) with flagged := false } d := by
    intro d
    rw [flag_eq_unflag b i j hf hn]
  have hfe : Finset.filter (fun c => ((b.flag i j).1.grid c).flagged = true) b.cells
      = (Finset.filter (fun c => (b.grid c).flagged = true) b.cells).erase (i, j) := by
    ext d
    rw [Finset.mem_filter, Finset.mem_erase, Finset.mem_filter, hgrid d]
    by_cases hd : d = (i, j)
    · subst hd
      rw [Function.update_same]
      simp
    · rw [Function.update_noteq hd]
      simp [hd]
  constructor
  · show (((b.flag i j).1.cells).filter
        fun c => ((b.flag i j).1.grid c).flagged = true).card = b.flaggedCount - 1
    rw [flag_cells b i j, hfe, Finset.card_erase_of_mem hmemS]
    rfl
  · exact Finset.card_pos.mpr ⟨(i, j), hmemS⟩

theorem flag_flaggedCount_setflag (b : Board) (i j : Nat)
    (hij : ((i, j) : Coordinate) ∈ b.cells)
    (hf : (b.grid (i, j)).flagged = false)
    (hok : b.nflagged + 1 ≤ b.nmines ∧ (b.grid (i, j)).exposed = false) :
    (b.flag i j).1.flaggedCount = b.flaggedCount + 1 := by
  have hnotmem : ((i, j) : Coordinate) ∉ Finset.filter
      (fun c => (b.grid c).flagged = true) b.cells := by
    intro hmem
    have h2 := (Finset.mem_filter.mp hmem).2
    rw [hf] at h2
    exact absurd h2 Bool.false_ne_true
  have hgrid : ∀ d, (b.flag i j).1.grid d
      = Function.update b.grid (i, j) { b.grid (i, j) with flagged := true } d := by
    intro d
    rw [flag_eq_setflag b i j hf hok]
  have hfe : Finset.filter (fun c => ((b.flag i j).1.grid c).flagged = true) b.cells
      = insert (i, j) (Finset.filter (fun c => (b.grid c).flagged = true) b.cells) := by
    ext d
    rw [Finset.mem_filter, Finset.mem_insert, Finset.mem_filter, hgrid d]
    by_cases hd : d = (i, j)
    · subst hd
      rw [Function.update_same]
      simp [hij]
    · rw [Function.update_noteq hd]
      simp [hd]
  show (((b.flag i j).1.cells).filter
      fun c => ((b.flag i j).1.grid c).flagged = true).card = b.flaggedCount + 1
  rw [flag_cells b i j, hfe, Finset.card_insert_of_not_mem hnotmem]
  rfl

theorem expose_flagCountInv (b : Board) (i j : Nat) (hinv : FlagCountInv b) :
    FlagCountInv (b.expose i j).1 := by
  constructor
  · rw [(expose_scalars b i j).2.2.2, expose_flaggedCount b i j]
    exact hinv.1
  · rw [(expose_scalars b i j).2.2.2, (expose_scalars b i j).2.2.1]
    exact hinv.2

theorem flag_flagCountInv (b : Board) (i j : Nat) (hi : i < b.nrows) (hj : j < b.ncolumns)
    (hinv : FlagCountInv b) : FlagCountInv (b.flag i j).1 := by
  have hij := mem_cells_of_lt b hi hj
  by_cases hf : (b.grid (i, j)).flagged = true
  · have hn : 1 ≤ b.nflagged := by
      have h1 : ((i, j) : Coordinate) ∈ Finset.filter
          (fun c => (b.grid c).flagged = true) b.cells :=
        Finset.mem_filter.mpr ⟨hij, hf⟩
      have h2 : 1 ≤ b.flaggedCount := Finset.card_pos.mpr ⟨(i, j), h1⟩
      have h3 := hinv.1
      omega
    have hcount := flag_flaggedCount_unflag b i j hij hf hn
    have hnf : (b.flag i j).1.nflagged = b.nflagged - 1 := by
      rw [flag_eq_unflag b i j hf hn]
    constructor
    · rw [hnf, hcount.1, hinv.1]
    · rw [hnf, (flag_scalars b i j).2.2]
      have h4 := hinv.2
      omega
  · have hf2 : (b.grid (i, j)).flagged = false := by
      cases hfb : (b.grid (i, j)).flagged
      · rfl
      · exact absurd hfb hf
    by_cases hok : b.nflagged + 1 ≤ b.nmines ∧ (b.grid (i, j)).exposed = false
    · have hcount := flag_flaggedCount_setflag b i j hij hf2 hok
      have hnf : (b.flag i j).1.nflagged = b.nflagged + 1 := by
        rw [flag_eq_setflag b i j hf2 hok]
      constructor
      · rw [hnf, hcount, hinv.1]
      · rw [hnf, (flag_scalars b i j).2.2]
        exact hok.1
    · rw [flag_eq_noop b i j hf2 hok]
      exact hinv

theorem reachable_flagCountInv {b0 b : Board} (h : Reachable b0 b)
    (h0 : FlagCountInv b0) : FlagCountInv b := by
  induction h with
  | refl => exact h0
  | expose i j hr hi hj ih => exact expose_flagCountInv _ i j ih
  | flag i j hr hi hj ih => exact flag_flagCountInv _ i j hi hj ih

theorem init_flagCountInv (nrows ncolumns nmines : Nat) (draws : List Coordinate) :
    FlagCountInv (Board.init nrows ncolumns nmines draws) := by
  constructor
  · show (0 : Nat) = (Board.init nrows ncolumns nmines draws).flaggedCount
    have hempty : Finset.filter
        (fun c => ((Board.init nrows ncolumns nmines draws).grid c).flagged = true)
        (Board.init nrows ncolumns nmines draws).cells = ∅ :=
      Finset.filter_false_of_mem (fun c _ => fun hcf => absurd hcf Bool.false_ne_true)
    show (0 : Nat) = (Finset.filter
        (fun c => ((Board.init nrows ncolumns nmines draws).grid c).flagged = true)
        (Board.init nrows ncolumns nmines draws).cells).card
    rw [hempty, Finset.card_empty]
  · exact Nat.zero_le nmines

/-- C8: in every reachable state the flag counter is at most `nmines`;
flagging an unflagged tile with the budget exhausted or the tile exposed
returns the board completely unchanged; unflagging a flagged tile always
succeeds, clears the flag and decrements the counter. -/
theorem C8_flag_budget (nrows ncolumns nmines : Nat) (draws : List Coordinate) (b : Board)
    (i j : Nat) (h : Reachable (Board.init nrows ncolumns nmines draws) b)
    (hi : i < b.nrows) (hj : j < b.ncolumns) :
    b.nflagged ≤ b.nmines
    ∧ ((b.grid (i, j)).flagged = false →
        (b.nflagged = b.nmines ∨ (b.grid (i, j)).exposed = true) → (b.flag i j).1 = b)
    ∧ ((b.grid (i, j)).flagged = true →
        ((b.flag i j).1.grid (i, j)).flagged = false
        ∧ (b.flag i j).1.nflagged = b.nflagged - 1 ∧ 1 ≤ b.nflagged) := by
  have hinv := reachable_flagCountInv h (init_flagCountInv nrows ncolumns nmines draws)
  refine ⟨hinv.2, ?_, ?_⟩
  · intro hf hcond
    refine flag_eq_noop b i j hf ?_
    rintro ⟨h1, h2⟩
    rcases hcond with h3 | h3
    · omega
    · rw [h3] at h2
      exact Bool.noConfusion h2
  · intro hf
    have hn : 1 ≤ b.nflagged := by
      have h1 : ((i, j) : Coordinate) ∈ Finset.filter
          (fun c => (b.grid c).flagged = true) b.cells :=
        Finset.mem_filter.mpr ⟨mem_cells_of_lt b hi hj, hf⟩
      have h2 : 1 ≤ b.flaggedCount := Finset.card_pos.mpr ⟨(i, j), h1⟩
      have h3 := hinv.1
      omega
    have hgrid : ∀ d, (b.flag i j).1.grid d
        = Function.update b.grid (i, j) { b.grid (i, j) with flagged := false } d := by
      intro d
      rw [flag_eq_unflag b i j hf hn]
    refine ⟨?_, ?_, hn⟩
    · rw [hgrid (i, j), Function.update_same]
    · rw [flag_eq_unflag b i j hf hn]

/-- Witness for C8 on a fresh 1×2 board with `nmines = 1` and no mines drawn. -/
theorem C8_flag_budget_witness :
    (Board.init 1 2 1 []).nflagged ≤ (Board.init 1 2 1 []).nmines
    ∧ (((Board.init 1 2 1 []).grid (0, 0)).flagged = false →
        ((Board.init 1 2 1 []).nflagged = (Board.init 1 2 1 []).nmines
          ∨ ((Board.init 1 2 1 []).grid (0, 0)).exposed = true) →
        ((Board.init 1 2 1 []).flag 0 0).1 = Board.init 1 2 1 [])
    ∧ (((Board.init 1 2 1 []).grid (0, 0)).flagged = true →
        (((Board.init 1 2 1 []).flag 0 0).1.grid (0, 0)).flagged = false
        ∧ ((Board.init 1 2 1 []).flag 0 0).1.nflagged = (Board.init 1 2 1 []).nflagged - 1
        ∧ 1 ≤ (Board.init 1 2 1 []).nflagged) :=
  C8_flag_budget 1 2 1 [] (Board.init 1 2 1 []) 0 0 (Reachable.refl _) (by decide) (by decide)
